import Mathlib

/-!
Verification of the two hash-table variants in `src/hash-table-v1.c` and
`src/hash-table-v2.c` (a fixed-capacity, string-keyed, u32-valued chained
hash table; variant 1 uses one table-wide mutex, variant 2 one mutex per
bucket).

Keys are modelled as byte strings (`List Nat`); `strcmp` equality on
NUL-terminated C strings is list equality.  The bucket array
`struct hash_table_entry entries[HASH_TABLE_CAPACITY]` is modelled as a
function `Fin HASH_TABLE_CAPACITY → List list_entry`; a bucket's SLIST
chain is a Lean list with the head of the list at `slh_first`.
-/

set_option autoImplicit false

/-- Modelled from the spec: `HASH_TABLE_CAPACITY` is defined in
`hash-table-base.h`, which is not among the provided sources.  The spec's
end-to-end example (§8) fixes capacity = 1024. -/
def HASH_TABLE_CAPACITY : Nat := 1024

/-- Modelled from the spec: `bernstein_hash` is declared in
`hash-table-base.h`, which is not among the provided sources.  Per spec
§4.1 it is the classic Bernstein/djb2 multiplicative hash: a running
32-bit accumulator starting from a fixed non-zero seed (5381), updated as
`accumulator = accumulator * 33 + byte` for each key byte, with 32-bit
wraparound made explicit by reducing mod 2^32. -/
def bernstein_hash (key : List Nat) : Nat :=
  key.foldl (fun acc b => (acc * 33 + b) % 2 ^ 32) 5381

/-- Embeds `struct list_entry` (both files, lines 10–14): a chained
key/value node.  The intrusive `SLIST_ENTRY` pointer field is represented
by the containing Lean list. -/
structure list_entry where
  key : List Nat
  value : Nat
  deriving DecidableEq, Repr

namespace v1

/-- Embeds `struct hash_table_v1` (hash-table-v1.c, lines 22–27): the
fixed bucket array.  The `pthread_mutex_t mutex` field is state of the
concurrency model, not of the sequential value, and is modelled
separately. -/
structure hash_table_v1 where
  entries : Fin HASH_TABLE_CAPACITY → List list_entry

/-- Embeds `hash_table_v1_create` (lines 29–43): every bucket starts as an
empty chain (`calloc` zero-fill plus `SLIST_INIT`). -/
def hash_table_v1_create : hash_table_v1 :=
  ⟨fun _ => []⟩

/-- Embeds `get_hash_table_entry` (hash-table-v1.c, lines 45–52): the
bucket holding `key` is `&hash_table->entries[bernstein_hash(key) %
HASH_TABLE_CAPACITY]`; the bucket's address is modelled by its index. -/
def get_hash_table_entry (key : List Nat) : Fin HASH_TABLE_CAPACITY :=
  ⟨bernstein_hash key % HASH_TABLE_CAPACITY, Nat.mod_lt _ (by decide)⟩

/-- Embeds `get_list_entry` (hash-table-v1.c, lines 54–68): linear
`SLIST_FOREACH` scan returning the first entry whose key compares equal
under `strcmp`, or NULL. -/
def get_list_entry (key : List Nat) : List list_entry → Option list_entry
  | [] => none
  | e :: rest => if e.key = key then some e else get_list_entry key rest

/-- Embeds `hash_table_v1_contains` (lines 70–77): true iff the scan finds
an entry. -/
def hash_table_v1_contains (t : hash_table_v1) (key : List Nat) : Bool :=
  (get_list_entry key (t.entries (get_hash_table_entry key))).isSome

/-- Writes `list_entry->value = value;` through the pointer returned by
`get_list_entry`: the first entry of the chain whose key matches gets the
new value, the rest of the chain is untouched. -/
def set_found_value (key : List Nat) (value : Nat) :
    List list_entry → List list_entry
  | [] => []
  | e :: rest =>
    if e.key = key then { e with value := value } :: rest
    else e :: set_found_value key value rest

/-- Embeds `hash_table_v1_add_entry` (lines 79–113), sequential
projection: look the key up in its bucket; if present overwrite that
entry's value in place, otherwise allocate a fresh entry and
`SLIST_INSERT_HEAD` it.  The global mutex lock/unlock bracket is the
concurrency model's concern. -/
def hash_table_v1_add_entry (t : hash_table_v1) (key : List Nat)
    (value : Nat) : hash_table_v1 :=
  let idx := get_hash_table_entry key
  let head := t.entries idx
  match get_list_entry key head with
  | some _ => ⟨Function.update t.entries idx (set_found_value key value head)⟩
  | none => ⟨Function.update t.entries idx (⟨key, value⟩ :: head)⟩

/-- Embeds `hash_table_v1_get_value` (lines 115–123).  The C function
`assert`s that the entry exists and returns its value; the fatal assertion
on an absent key is modelled by `none`. -/
def hash_table_v1_get_value (t : hash_table_v1) (key : List Nat) :
    Option Nat :=
  (get_list_entry key (t.entries (get_hash_table_entry key))).map
    list_entry.value

end v1

namespace v2

/-- Embeds `struct hash_table_v2` (hash-table-v2.c, lines 24–26): the
fixed bucket array; each bucket's `pthread_mutex_t` lives in the
concurrency model. -/
structure hash_table_v2 where
  entries : Fin HASH_TABLE_CAPACITY → List list_entry

/-- Embeds `hash_table_v2_create` (hash-table-v2.c, lines 28–44). -/
def hash_table_v2_create : hash_table_v2 :=
  ⟨fun _ => []⟩

/-- Embeds `get_hash_table_entry` (hash-table-v2.c, lines 46–53); the
same index computation as variant 1's copy of the static helper. -/
def get_hash_table_entry (key : List Nat) : Fin HASH_TABLE_CAPACITY :=
  ⟨bernstein_hash key % HASH_TABLE_CAPACITY, Nat.mod_lt _ (by decide)⟩

/-- Embeds `get_list_entry` (hash-table-v2.c, lines 55–69). -/
def get_list_entry (key : List Nat) : List list_entry → Option list_entry
  | [] => none
  | e :: rest => if e.key = key then some e else get_list_entry key rest

/-- Embeds `hash_table_v2_contains` (hash-table-v2.c, lines 71–78). -/
def hash_table_v2_contains (t : hash_table_v2) (key : List Nat) : Bool :=
  (get_list_entry key (t.entries (get_hash_table_entry key))).isSome

/-- Writes the found entry's value in place, as in variant 1. -/
def set_found_value (key : List Nat) (value : Nat) :
    List list_entry → List list_entry
  | [] => []
  | e :: rest =>
    if e.key = key then { e with value := value } :: rest
    else e :: set_found_value key value rest

/-- Embeds `hash_table_v2_add_entry` (hash-table-v2.c, lines 80–113),
sequential projection: identical find-or-insert sequence to variant 1;
only the guard granularity (that bucket's mutex) differs, which the
concurrency model captures. -/
def hash_table_v2_add_entry (t : hash_table_v2) (key : List Nat)
    (value : Nat) : hash_table_v2 :=
  let idx := get_hash_table_entry key
  let head := t.entries idx
  match get_list_entry key head with
  | some _ => ⟨Function.update t.entries idx (set_found_value key value head)⟩
  | none => ⟨Function.update t.entries idx (⟨key, value⟩ :: head)⟩

/-- Embeds `hash_table_v2_get_value` (hash-table-v2.c, lines 115–123);
the fatal assertion on an absent key is modelled by `none`. -/
def hash_table_v2_get_value (t : hash_table_v2) (key : List Nat) :
    Option Nat :=
  (get_list_entry key (t.entries (get_hash_table_entry key))).map
    list_entry.value

end v2

/-- A single mutating operation of the public interface (the read
operations `contains` and `get_value` do not change the table). -/
inductive TableOp where
  | add_entry (key : List Nat) (value : Nat)
  deriving DecidableEq, Repr

namespace v1

/-- Runs one operation on a variant-1 table. -/
def apply_op (t : hash_table_v1) : TableOp → hash_table_v1
  | .add_entry k v => hash_table_v1_add_entry t k v

/-- Runs a sequential operation sequence on a fresh variant-1 table. -/
def run (ops : List TableOp) : hash_table_v1 :=
  ops.foldl apply_op hash_table_v1_create

/-- Structural table invariant (spec §3): every bucket's chain has
pairwise-distinct keys, and every entry sits in the bucket its key hashes
to. -/
def wf (t : hash_table_v1) : Prop :=
  ∀ i : Fin HASH_TABLE_CAPACITY,
    ((t.entries i).map list_entry.key).Nodup ∧
      ∀ e ∈ t.entries i, get_hash_table_entry e.key = i

/-- Counts entries carrying `key` across the whole table. -/
def count_key (t : hash_table_v1) (key : List Nat) : Nat :=
  ∑ i : Fin HASH_TABLE_CAPACITY,
    (t.entries i).countP (fun e => e.key = key)

/-- Counts all entries of the table. -/
def count_entries (t : hash_table_v1) : Nat :=
  ∑ i : Fin HASH_TABLE_CAPACITY, (t.entries i).length

end v1

namespace v2

/-- Runs one operation on a variant-2 table. -/
def apply_op (t : hash_table_v2) : TableOp → hash_table_v2
  | .add_entry k v => hash_table_v2_add_entry t k v

/-- Runs a sequential operation sequence on a fresh variant-2 table. -/
def run (ops : List TableOp) : hash_table_v2 :=
  ops.foldl apply_op hash_table_v2_create

/-- Structural table invariant for variant 2, as for variant 1. -/
def wf (t : hash_table_v2) : Prop :=
  ∀ i : Fin HASH_TABLE_CAPACITY,
    ((t.entries i).map list_entry.key).Nodup ∧
      ∀ e ∈ t.entries i, get_hash_table_entry e.key = i

/-- Counts entries carrying `key` across the whole table. -/
def count_key (t : hash_table_v2) (key : List Nat) : Nat :=
  ∑ i : Fin HASH_TABLE_CAPACITY,
    (t.entries i).countP (fun e => e.key = key)

/-- Counts all entries of the table. -/
def count_entries (t : hash_table_v2) : Nat :=
  ∑ i : Fin HASH_TABLE_CAPACITY, (t.entries i).length

end v2

/-!
Key-aliasing model.  The sequential embedding above treats keys as pure
byte strings.  To settle claims about key ownership, this refined model
makes the pointer indirection of `const char *key` explicit: the caller
passes a buffer id into mutable memory, `strcmp` reads the buffer's bytes
at lookup time, and `list_entry->key = key;` (hash-table-v1.c line 104,
hash-table-v2.c line 105) stores the buffer id itself — the code takes no
copy of the key bytes (there is no strdup/memcpy in either file).
-/

namespace ptr

/-- Caller-owned key buffers: buffer id `p` currently holds bytes
`bufs.getD p []`. -/
structure memory where
  bufs : List (List Nat)
  deriving DecidableEq, Repr

/-- Reads a buffer's current byte contents. -/
def read_buf (m : memory) (p : Nat) : List Nat :=
  m.bufs.getD p []

/-- The caller mutates one of its own buffers (the table is not
involved). -/
def write_buf (m : memory) (p : Nat) (bs : List Nat) : memory :=
  ⟨m.bufs.set p bs⟩

/-- Embeds `struct list_entry` with the pointer indirection kept: the
`key` field is the stored buffer id, exactly what
`list_entry->key = key;` assigns. -/
structure list_entry_p where
  key : Nat
  value : Nat
  deriving DecidableEq, Repr

/-- The bucket array of either variant under the aliasing model. -/
structure hash_table_p where
  entries : Fin HASH_TABLE_CAPACITY → List list_entry_p

/-- Fresh table: all chains empty. -/
def hash_table_p_create : hash_table_p :=
  ⟨fun _ => []⟩

/-- Embeds `get_list_entry`: `strcmp(entry->key, key)` dereferences the
stored buffer id and compares the buffer's bytes as they are at lookup
time against the probe bytes. -/
def get_list_entry (m : memory) (key : List Nat) :
    List list_entry_p → Option list_entry_p
  | [] => none
  | e :: rest =>
    if read_buf m e.key = key then some e else get_list_entry m key rest

/-- Embeds `contains` for a probe whose bytes are `key` (the probe
buffer's contents at call time). -/
def hash_table_p_contains (m : memory) (t : hash_table_p)
    (key : List Nat) : Bool :=
  (get_list_entry m key (t.entries (v1.get_hash_table_entry key))).isSome

/-- Embeds `get_value` under the aliasing model; `none` models the fatal
assertion. -/
def hash_table_p_get_value (m : memory) (t : hash_table_p)
    (key : List Nat) : Option Nat :=
  (get_list_entry m key (t.entries (v1.get_hash_table_entry key))).map
    list_entry_p.value

/-- Writes the found entry's value in place, matching entries by their
buffers' current bytes. -/
def set_found_value (m : memory) (key : List Nat) (value : Nat) :
    List list_entry_p → List list_entry_p
  | [] => []
  | e :: rest =>
    if read_buf m e.key = key then { e with value := value } :: rest
    else e :: set_found_value m key value rest

/-- Embeds `add_entry` under the aliasing model: the caller passes buffer
id `p`; the key bytes are read for hashing and comparison, and on the
insert path the new entry stores the buffer id `p` itself
(`list_entry->key = key;`), not a copy of the bytes. -/
def hash_table_p_add_entry (m : memory) (t : hash_table_p) (p : Nat)
    (value : Nat) : hash_table_p :=
  let key := read_buf m p
  let idx := v1.get_hash_table_entry key
  let head := t.entries idx
  match get_list_entry m key head with
  | some _ => ⟨Function.update t.entries idx (set_found_value m key value head)⟩
  | none => ⟨Function.update t.entries idx (⟨p, value⟩ :: head)⟩

end ptr

/-!
Allocation-failure model.  The sequential embedding assumes every
allocation succeeds; this model adds the outcome of each `calloc` /
`pthread_mutex_init` call so the failure paths of the C code become
visible: `assert` aborts with a diagnostic, `perror` + `exit(EXIT_FAILURE)`
reports and terminates, while an unchecked NULL dereference is undefined
behavior that reports nothing.
-/

namespace alloc

/-- How an execution of the C code dies. -/
inductive crash where
  /-- An `assert` fired: diagnostic printed, process aborts. -/
  | assert_fail
  /-- A `perror` message was printed, then `exit(EXIT_FAILURE)`. -/
  | reported_exit
  /-- A NULL pointer returned by an unchecked allocation was
  dereferenced: undefined behavior, nothing reported. -/
  | null_deref
  deriving DecidableEq, Repr

/-- Whether the death is a reported termination (as opposed to raw
undefined behavior). -/
def crash.reported : crash → Bool
  | .assert_fail => true
  | .reported_exit => true
  | .null_deref => false

/-- Embeds `hash_table_v1_create` (lines 29–43) with explicit outcomes:
the table `calloc` is guarded by `assert(hash_table != NULL)`, and a
failing `pthread_mutex_init` hits `perror` + `exit(EXIT_FAILURE)`. -/
def hash_table_v1_create_alloc (calloc_ok mutex_init_ok : Bool) :
    Except crash v1.hash_table_v1 :=
  if calloc_ok then
    if mutex_init_ok then .ok v1.hash_table_v1_create
    else .error .reported_exit
  else .error .assert_fail

/-- Embeds `hash_table_v2_create` (hash-table-v2.c, lines 28–44):
same `assert` on the table `calloc`; any failing per-bucket
`pthread_mutex_init` hits `perror` + `exit(EXIT_FAILURE)`. -/
def hash_table_v2_create_alloc (calloc_ok mutex_init_ok : Bool) :
    Except crash v2.hash_table_v2 :=
  if calloc_ok then
    if mutex_init_ok then .ok v2.hash_table_v2_create
    else .error .reported_exit
  else .error .assert_fail

/-- Embeds `hash_table_v1_add_entry` (lines 79–113) with the outcome of
the entry `calloc` (line 103) explicit.  The update path allocates
nothing.  On the insert path the `calloc` result is used unchecked: when
it fails, the very next statement `list_entry->key = key;` (line 104)
writes through NULL — undefined behavior, not a reported termination. -/
def hash_table_v1_add_entry_alloc (t : v1.hash_table_v1) (key : List Nat)
    (value : Nat) (calloc_ok : Bool) : Except crash v1.hash_table_v1 :=
  let idx := v1.get_hash_table_entry key
  let head := t.entries idx
  match v1.get_list_entry key head with
  | some _ =>
    .ok ⟨Function.update t.entries idx (v1.set_found_value key value head)⟩
  | none =>
    if calloc_ok then
      .ok ⟨Function.update t.entries idx (⟨key, value⟩ :: head)⟩
    else .error .null_deref

/-- Embeds `hash_table_v2_add_entry` (hash-table-v2.c, lines 80–113) with
the outcome of the entry `calloc` (line 104) explicit; the unchecked
failure path is identical to variant 1's. -/
def hash_table_v2_add_entry_alloc (t : v2.hash_table_v2) (key : List Nat)
    (value : Nat) (calloc_ok : Bool) : Except crash v2.hash_table_v2 :=
  let idx := v2.get_hash_table_entry key
  let head := t.entries idx
  match v2.get_list_entry key head with
  | some _ =>
    .ok ⟨Function.update t.entries idx (v2.set_found_value key value head)⟩
  | none =>
    if calloc_ok then
      .ok ⟨Function.update t.entries idx (⟨key, value⟩ :: head)⟩
    else .error .null_deref

end alloc

/-!
Concurrency model.  `add_entry` is decomposed at the granularity of its
accesses to shared state (the bucket array and the mutexes); thread-local
work (hashing the key, `calloc`, filling in the new node's fields) is
folded into the adjacent shared access.  `SLIST_INSERT_HEAD(head, elm,
pointers)` expands to the two shared accesses `elm->pointers.sle_next =
head->slh_first;` (read of the bucket head, modelled by saving the
current chain) and `head->slh_first = elm;` (write of the bucket head,
modelled by consing the new node onto the saved chain).

The model is parameterized by the guard discipline `lock_of`, mapping a
bucket index to the mutex that `add_entry` acquires for it: variant 1
locks the single table-wide mutex for every bucket (`lock_of` constant),
variant 2 locks the target bucket's own mutex (`lock_of` the identity).
`pthread_mutex_lock` blocks until the mutex is free, so the acquire step
is enabled only when no thread owns the mutex; lock and unlock calls are
assumed to succeed (their failure paths exit the process).
-/

namespace conc

/-- Program counter of one thread executing `add_entry`, between its
shared-memory accesses. -/
inductive pc where
  /-- Before `pthread_mutex_lock`. -/
  | start
  /-- Mutex acquired; about to scan the bucket (`get_list_entry`). -/
  | scan
  /-- The scan found the key; about to write `list_entry->value`. -/
  | write_found
  /-- The scan missed; the new node is allocated and filled; about to
  read `head->slh_first` into the node's `sle_next`. -/
  | read_head
  /-- The node's `sle_next` holds `saved`; about to write
  `head->slh_first = elm`. -/
  | write_head (saved : List list_entry)
  /-- Bucket mutation done; about to `pthread_mutex_unlock`. -/
  | finish
  /-- Returned from `add_entry`. -/
  | done
  deriving DecidableEq, Repr

/-- Shared state of an execution with `n` threads and mutexes drawn from
`L`: the bucket array, each mutex's owner, and every thread's program
counter. -/
structure sys (n : Nat) (L : Type) where
  entries : Fin HASH_TABLE_CAPACITY → List list_entry
  owner : L → Option (Fin n)
  pcs : Fin n → pc

/-- The key thread `t` inserts. -/
def key_of {n : Nat} (jobs : Fin n → List Nat × Nat) (t : Fin n) :
    List Nat :=
  (jobs t).1

/-- The value thread `t` inserts. -/
def val_of {n : Nat} (jobs : Fin n → List Nat × Nat) (t : Fin n) : Nat :=
  (jobs t).2

/-- The bucket thread `t` targets (`get_hash_table_entry` is pure, so
computing it before or after the lock — variant 2 versus variant 1 — is
indistinguishable). -/
def idx_of {n : Nat} (jobs : Fin n → List Nat × Nat) (t : Fin n) :
    Fin HASH_TABLE_CAPACITY :=
  v1.get_hash_table_entry (key_of jobs t)

/-- One interleaving step: some thread performs its next shared-memory
access of `add_entry`. -/
inductive step (n : Nat) (L : Type) [DecidableEq L]
    (jobs : Fin n → List Nat × Nat)
    (lock_of : Fin HASH_TABLE_CAPACITY → L) :
    sys n L → sys n L → Prop where
  /-- `pthread_mutex_lock`: blocks until the guard covering the target
  bucket is free, then takes it. -/
  | acquire (s : sys n L) (t : Fin n)
      (hpc : s.pcs t = .start)
      (hfree : s.owner (lock_of (idx_of jobs t)) = none) :
      step n L jobs lock_of s
        { s with
          owner := Function.update s.owner (lock_of (idx_of jobs t)) (some t),
          pcs := Function.update s.pcs t .scan }
  /-- `get_list_entry` finds an entry for the key: take the update
  branch. -/
  | scan_found (s : sys n L) (t : Fin n) (e : list_entry)
      (hpc : s.pcs t = .scan)
      (hfound : v1.get_list_entry (key_of jobs t)
        (s.entries (idx_of jobs t)) = some e) :
      step n L jobs lock_of s
        { s with pcs := Function.update s.pcs t .write_found }
  /-- `get_list_entry` misses: take the insert branch (the `calloc` and
  the node's field writes are thread-local). -/
  | scan_missing (s : sys n L) (t : Fin n)
      (hpc : s.pcs t = .scan)
      (hmiss : v1.get_list_entry (key_of jobs t)
        (s.entries (idx_of jobs t)) = none) :
      step n L jobs lock_of s
        { s with pcs := Function.update s.pcs t .read_head }
  /-- `list_entry->value = value;` on the found entry. -/
  | write_found_value (s : sys n L) (t : Fin n)
      (hpc : s.pcs t = .write_found) :
      step n L jobs lock_of s
        { s with
          entries := Function.update s.entries (idx_of jobs t)
            (v1.set_found_value (key_of jobs t) (val_of jobs t)
              (s.entries (idx_of jobs t))),
          pcs := Function.update s.pcs t .finish }
  /-- `elm->pointers.sle_next = head->slh_first;`: the new node now
  points at the chain as currently seen. -/
  | read_head_snapshot (s : sys n L) (t : Fin n)
      (hpc : s.pcs t = .read_head) :
      step n L jobs lock_of s
        { s with
          pcs := Function.update s.pcs t
            (.write_head (s.entries (idx_of jobs t))) }
  /-- `head->slh_first = elm;`: the bucket head now points at the new
  node, whose tail is the snapshot taken at the previous step. -/
  | write_head_publish (s : sys n L) (t : Fin n) (saved : List list_entry)
      (hpc : s.pcs t = .write_head saved) :
      step n L jobs lock_of s
        { s with
          entries := Function.update s.entries (idx_of jobs t)
            (⟨key_of jobs t, val_of jobs t⟩ :: saved),
          pcs := Function.update s.pcs t .finish }
  /-- `pthread_mutex_unlock`: releases the guard. -/
  | release (s : sys n L) (t : Fin n)
      (hpc : s.pcs t = .finish) :
      step n L jobs lock_of s
        { s with
          owner := Function.update s.owner (lock_of (idx_of jobs t)) none,
          pcs := Function.update s.pcs t .done }

/-- Initial state: fresh table, all mutexes free, every thread about to
call `add_entry`. -/
def init (n : Nat) (L : Type) : sys n L :=
  ⟨fun _ => [], fun _ => none, fun _ => .start⟩

/-- Reflexive-transitive closure of the interleaving step. -/
inductive reaches (n : Nat) (L : Type) [DecidableEq L]
    (jobs : Fin n → List Nat × Nat)
    (lock_of : Fin HASH_TABLE_CAPACITY → L) :
    sys n L → sys n L → Prop where
  | refl (s : sys n L) : reaches n L jobs lock_of s s
  | tail (s1 s2 s3 : sys n L) (h : reaches n L jobs lock_of s1 s2)
      (hs : step n L jobs lock_of s2 s3) : reaches n L jobs lock_of s1 s3

/-- Variant 1's guard discipline (hash-table-v1.c lines 83–87, 108–112):
every bucket is covered by the one table-wide mutex. -/
def v1_lock_of : Fin HASH_TABLE_CAPACITY → Unit :=
  fun _ => ()

/-- Variant 2's guard discipline (hash-table-v2.c lines 86–90, 109–112):
each bucket is covered by its own mutex. -/
def v2_lock_of : Fin HASH_TABLE_CAPACITY → Fin HASH_TABLE_CAPACITY :=
  fun i => i

/-- A thread at this program counter is inside the lock-protected
critical section (it has returned from `pthread_mutex_lock` and has not
yet returned from `pthread_mutex_unlock`). -/
def locked : pc → Prop
  | .start => False
  | .done => False
  | _ => True

/-- A thread at this program counter has already published its entry to
the bucket array (performed its table write). -/
def committed : pc → Prop
  | .finish => True
  | .done => True
  | _ => False

/-- Inductive invariant of the interleaved execution for pairwise
disjoint keys from an initially empty table: lock ownership matches the
program counters, the bucket array holds exactly the entries of the
threads that have already written (with per-bucket key uniqueness), a
thread about to publish its node holds an up-to-date snapshot of its
bucket, and no thread ever reaches the update-in-place branch. -/
structure inv (n : Nat) (L : Type) (jobs : Fin n → List Nat × Nat)
    (lock_of : Fin HASH_TABLE_CAPACITY → L) (s : sys n L) : Prop where
  owner_of_locked : ∀ t : Fin n, locked (s.pcs t) →
    s.owner (lock_of (idx_of jobs t)) = some t
  mem_iff : ∀ (i : Fin HASH_TABLE_CAPACITY) (e : list_entry),
    e ∈ s.entries i ↔ ∃ t : Fin n, committed (s.pcs t) ∧
      idx_of jobs t = i ∧ e = ⟨key_of jobs t, val_of jobs t⟩
  keys_nodup : ∀ i : Fin HASH_TABLE_CAPACITY,
    ((s.entries i).map list_entry.key).Nodup
  snapshot_current : ∀ (t : Fin n) (saved : List list_entry),
    s.pcs t = .write_head saved → saved = s.entries (idx_of jobs t)
  no_write_found : ∀ t : Fin n, s.pcs t ≠ .write_found

/-- Job assignment of a one-thread demonstration run: the single thread
inserts key "a" (byte 97) with value 7. -/
def demo_jobs : Fin 1 → List Nat × Nat :=
  fun _ => ([97], 7)

/-- Final state of the demonstration run under either guard discipline:
the thread has acquired, scanned (miss), snapshotted, published its node,
and released. -/
def demo_final (L : Type) [DecidableEq L]
    (lock_of : Fin HASH_TABLE_CAPACITY → L) : sys 1 L :=
  ⟨Function.update (fun _ => []) (v1.get_hash_table_entry [97])
      [⟨[97], 7⟩],
    Function.update
      (Function.update (fun _ => none)
        (lock_of (v1.get_hash_table_entry [97])) (some 0))
      (lock_of (v1.get_hash_table_entry [97])) none,
    Function.update
      (Function.update
        (Function.update
          (Function.update (Function.update (fun _ => pc.start) 0 pc.scan)
            0 pc.read_head)
          0 (pc.write_head []))
        0 pc.finish)
      0 pc.done⟩

end conc

/-! Basic lemmas about the bucket-chain primitives of variant 1. -/

namespace v1

theorem get_list_entry_some (key : List Nat) :
    ∀ (l : List list_entry) (e : list_entry),
      get_list_entry key l = some e → e.key = key ∧ e ∈ l := by
  intro l
  induction l with
  | nil => intro e h; simp [get_list_entry] at h
  | cons a rest ih =>
    intro e h
    rw [get_list_entry] at h
    by_cases hk : a.key = key
    · rw [if_pos hk] at h
      injection h with h
      subst h
      exact ⟨hk, List.mem_cons_self _ _⟩
    · rw [if_neg hk] at h
      obtain ⟨h1, h2⟩ := ih e h
      exact ⟨h1, List.mem_cons_of_mem _ h2⟩

theorem get_list_entry_none (key : List Nat) :
    ∀ l : List list_entry,
      get_list_entry key l = none ↔ ∀ e ∈ l, e.key ≠ key := by
  intro l
  induction l with
  | nil => simp [get_list_entry]
  | cons a rest ih =>
    rw [get_list_entry]
    by_cases hk : a.key = key
    · rw [if_pos hk]
      simp only [List.mem_cons]
      constructor
      · intro h; simp at h
      · intro h; exact absurd hk (h a (Or.inl rfl))
    · rw [if_neg hk, ih]
      simp only [List.mem_cons]
      constructor
      · intro h e he
        rcases he with rfl | he
        · exact hk
        · exact h e he
      · intro h e he
        exact h e (Or.inr he)

theorem get_list_entry_set_found_value (key : List Nat) (value : Nat) :
    ∀ l : List list_entry,
      get_list_entry key (set_found_value key value l) =
        (get_list_entry key l).map fun e => { e with value := value } := by
  intro l
  induction l with
  | nil => rfl
  | cons a rest ih =>
    by_cases hk : a.key = key
    · simp [set_found_value, get_list_entry, hk]
    · simp [set_found_value, get_list_entry, hk, ih]

theorem set_found_value_map_key (key : List Nat) (value : Nat) :
    ∀ l : List list_entry,
      (set_found_value key value l).map list_entry.key =
        l.map list_entry.key := by
  intro l
  induction l with
  | nil => rfl
  | cons a rest ih =>
    by_cases hk : a.key = key
    · simp [set_found_value, hk]
    · simp [set_found_value, hk, ih]

theorem set_found_value_length (key : List Nat) (value : Nat) :
    ∀ l : List list_entry,
      (set_found_value key value l).length = l.length := by
  intro l
  induction l with
  | nil => rfl
  | cons a rest ih =>
    by_cases hk : a.key = key
    · simp [set_found_value, hk]
    · simp [set_found_value, hk, ih]

theorem add_entry_lookup (t : hash_table_v1) (key : List Nat)
    (value : Nat) :
    get_list_entry key
        ((hash_table_v1_add_entry t key value).entries
          (get_hash_table_entry key)) =
      some ⟨key, value⟩ := by
  simp only [hash_table_v1_add_entry]
  cases h : get_list_entry key (t.entries (get_hash_table_entry key)) with
  | none =>
    simp only [h, Function.update_same]
    rw [get_list_entry, if_pos rfl]
  | some e =>
    obtain ⟨hk, _⟩ := get_list_entry_some key _ e h
    cases e with
    | mk ekey evalue =>
      subst hk
      simp only [h, Function.update_same]
      rw [get_list_entry_set_found_value, h]
      rfl

theorem add_entry_frame (t : hash_table_v1) (key : List Nat) (value : Nat)
    (i : Fin HASH_TABLE_CAPACITY) (hi : i ≠ get_hash_table_entry key) :
    (hash_table_v1_add_entry t key value).entries i = t.entries i := by
  simp only [hash_table_v1_add_entry]
  cases h : get_list_entry key (t.entries (get_hash_table_entry key)) <;>
    simp [h, Function.update_noteq hi]

end v1

/-! The same chain lemmas for variant 2 (its static helpers are separate
copies in hash-table-v2.c, so they get their own proofs). -/

namespace v2

theorem get_list_entry_some_v2 (key : List Nat) :
    ∀ (l : List list_entry) (e : list_entry),
      get_list_entry key l = some e → e.key = key ∧ e ∈ l := by
  intro l
  induction l with
  | nil => intro e h; simp [get_list_entry] at h
  | cons a rest ih =>
    intro e h
    rw [get_list_entry] at h
    by_cases hk : a.key = key
    · rw [if_pos hk] at h
      injection h with h
      subst h
      exact ⟨hk, List.mem_cons_self _ _⟩
    · rw [if_neg hk] at h
      obtain ⟨h1, h2⟩ := ih e h
      exact ⟨h1, List.mem_cons_of_mem _ h2⟩

theorem get_list_entry_none_v2 (key : List Nat) :
    ∀ l : List list_entry,
      get_list_entry key l = none ↔ ∀ e ∈ l, e.key ≠ key := by
  intro l
  induction l with
  | nil => simp [get_list_entry]
  | cons a rest ih =>
    rw [get_list_entry]
    by_cases hk : a.key = key
    · rw [if_pos hk]
      simp only [List.mem_cons]
      constructor
      · intro h; simp at h
      · intro h; exact absurd hk (h a (Or.inl rfl))
    · rw [if_neg hk, ih]
      simp only [List.mem_cons]
      constructor
      · intro h e he
        rcases he with rfl | he
        · exact hk
        · exact h e he
      · intro h e he
        exact h e (Or.inr he)

theorem get_list_entry_set_found_value_v2 (key : List Nat) (value : Nat) :
    ∀ l : List list_entry,
      get_list_entry key (set_found_value key value l) =
        (get_list_entry key l).map fun e => { e with value := value } := by
  intro l
  induction l with
  | nil => rfl
  | cons a rest ih =>
    by_cases hk : a.key = key
    · simp [set_found_value, get_list_entry, hk]
    · simp [set_found_value, get_list_entry, hk, ih]

theorem set_found_value_map_key_v2 (key : List Nat) (value : Nat) :
    ∀ l : List list_entry,
      (set_found_value key value l).map list_entry.key =
        l.map list_entry.key := by
  intro l
  induction l with
  | nil => rfl
  | cons a rest ih =>
    by_cases hk : a.key = key
    · simp [set_found_value, hk]
    · simp [set_found_value, hk, ih]

theorem set_found_value_length_v2 (key : List Nat) (value : Nat) :
    ∀ l : List list_entry,
      (set_found_value key value l).length = l.length := by
  intro l
  induction l with
  | nil => rfl
  | cons a rest ih =>
    by_cases hk : a.key = key
    · simp [set_found_value, hk]
    · simp [set_found_value, hk, ih]

theorem add_entry_lookup_v2 (t : hash_table_v2) (key : List Nat)
    (value : Nat) :
    get_list_entry key
        ((hash_table_v2_add_entry t key value).entries
          (get_hash_table_entry key)) =
      some ⟨key, value⟩ := by
  simp only [hash_table_v2_add_entry]
  cases h : get_list_entry key (t.entries (get_hash_table_entry key)) with
  | none =>
    simp only [h, Function.update_same]
    rw [get_list_entry, if_pos rfl]
  | some e =>
    obtain ⟨hk, _⟩ := get_list_entry_some_v2 key _ e h
    cases e with
    | mk ekey evalue =>
      subst hk
      simp only [h, Function.update_same]
      rw [get_list_entry_set_found_value_v2, h]
      rfl

theorem add_entry_frame_v2 (t : hash_table_v2) (key : List Nat) (value : Nat)
    (i : Fin HASH_TABLE_CAPACITY) (hi : i ≠ get_hash_table_entry key) :
    (hash_table_v2_add_entry t key value).entries i = t.entries i := by
  simp only [hash_table_v2_add_entry]
  cases h : get_list_entry key (t.entries (get_hash_table_entry key)) <;>
    simp [h, Function.update_noteq hi]

end v2

/-! Preservation of the structural invariant, variant 1. -/

namespace v1

theorem wf_create : wf hash_table_v1_create := by
  intro i
  constructor
  · simp [hash_table_v1_create]
  · intro e he
    simp [hash_table_v1_create] at he

theorem wf_add_entry (t : hash_table_v1) (key : List Nat) (value : Nat)
    (hw : wf t) : wf (hash_table_v1_add_entry t key value) := by
  intro i
  by_cases hi : i = get_hash_table_entry key
  · subst hi
    simp only [hash_table_v1_add_entry]
    cases h : get_list_entry key (t.entries (get_hash_table_entry key)) with
    | some e =>
      simp only [h, Function.update_same]
      constructor
      · rw [set_found_value_map_key]
        exact (hw _).1
      · intro e' he'
        have hmem : e'.key ∈
            (set_found_value key value
              (t.entries (get_hash_table_entry key))).map list_entry.key :=
          List.mem_map_of_mem _ he'
        rw [set_found_value_map_key] at hmem
        obtain ⟨e0, he0, hk0⟩ := List.mem_map.mp hmem
        rw [← hk0]
        exact (hw _).2 e0 he0
    | none =>
      simp only [h, Function.update_same]
      constructor
      · rw [List.map_cons]
        refine List.nodup_cons.mpr ⟨?_, (hw _).1⟩
        intro hmem
        obtain ⟨e0, he0, hk0⟩ := List.mem_map.mp hmem
        exact ((get_list_entry_none key _).mp h e0 he0) hk0
      · intro e' he'
        rcases List.mem_cons.mp he' with rfl | he'
        · rfl
        · exact (hw _).2 e' he'
  · rw [add_entry_frame t key value i hi]
    exact hw i

theorem wf_run (ops : List TableOp) : wf (run ops) := by
  rw [run]
  suffices h : ∀ t, wf t → wf (ops.foldl apply_op t) from h _ wf_create
  induction ops with
  | nil => intro t ht; exact ht
  | cons op rest ih =>
    intro t ht
    rw [List.foldl_cons]
    apply ih
    cases op with
    | add_entry k v => exact wf_add_entry t k v ht

end v1

/-! Preservation of the structural invariant, variant 2. -/

namespace v2

theorem wf_create_v2 : wf hash_table_v2_create := by
  intro i
  constructor
  · simp [hash_table_v2_create]
  · intro e he
    simp [hash_table_v2_create] at he

theorem wf_add_entry_v2 (t : hash_table_v2) (key : List Nat) (value : Nat)
    (hw : wf t) : wf (hash_table_v2_add_entry t key value) := by
  intro i
  by_cases hi : i = get_hash_table_entry key
  · subst hi
    simp only [hash_table_v2_add_entry]
    cases h : get_list_entry key (t.entries (get_hash_table_entry key)) with
    | some e =>
      simp only [h, Function.update_same]
      constructor
      · rw [set_found_value_map_key_v2]
        exact (hw _).1
      · intro e' he'
        have hmem : e'.key ∈
            (set_found_value key value
              (t.entries (get_hash_table_entry key))).map list_entry.key :=
          List.mem_map_of_mem _ he'
        rw [set_found_value_map_key_v2] at hmem
        obtain ⟨e0, he0, hk0⟩ := List.mem_map.mp hmem
        rw [← hk0]
        exact (hw _).2 e0 he0
    | none =>
      simp only [h, Function.update_same]
      constructor
      · rw [List.map_cons]
        refine List.nodup_cons.mpr ⟨?_, (hw _).1⟩
        intro hmem
        obtain ⟨e0, he0, hk0⟩ := List.mem_map.mp hmem
        exact ((get_list_entry_none_v2 key _).mp h e0 he0) hk0
      · intro e' he'
        rcases List.mem_cons.mp he' with rfl | he'
        · rfl
        · exact (hw _).2 e' he'
  · rw [add_entry_frame_v2 t key value i hi]
    exact hw i

theorem wf_run_v2 (ops : List TableOp) : wf (run ops) := by
  rw [run]
  suffices h : ∀ t, wf t → wf (ops.foldl apply_op t) from h _ wf_create_v2
  induction ops with
  | nil => intro t ht; exact ht
  | cons op rest ih =>
    intro t ht
    rw [List.foldl_cons]
    apply ih
    cases op with
    | add_entry k v => exact wf_add_entry_v2 t k v ht

end v2

/-! Counting entries with a given key in one chain.  These lemmas are at
the level of plain chains and are shared by both variants. -/

theorem countP_key_zero (key : List Nat) :
    ∀ l : List list_entry, (∀ e ∈ l, e.key ≠ key) →
      l.countP (fun e => e.key = key) = 0 := by
  intro l
  induction l with
  | nil => intro _; rfl
  | cons a rest ih =>
    intro h
    have ha : ¬(a.key = key) := h a (List.mem_cons_self _ _)
    rw [List.countP_cons]
    simp [ha, ih fun e he => h e (List.mem_cons_of_mem _ he)]

theorem countP_key_one (key : List Nat) :
    ∀ l : List list_entry, (l.map list_entry.key).Nodup →
      (∃ e ∈ l, e.key = key) →
      l.countP (fun e => e.key = key) = 1 := by
  intro l
  induction l with
  | nil => intro _ h; simp at h
  | cons a rest ih =>
    intro hnd h
    rw [List.map_cons, List.nodup_cons] at hnd
    rw [List.countP_cons]
    by_cases hk : a.key = key
    · have hrest : ∀ e ∈ rest, e.key ≠ key := by
        intro e he hek
        have : a.key ∈ rest.map list_entry.key := by
          rw [hk, ← hek]
          exact List.mem_map_of_mem _ he
        exact hnd.1 this
      simp [hk, countP_key_zero key rest hrest]
    · obtain ⟨e, he, hek⟩ := h
      rcases List.mem_cons.mp he with rfl | he
      · exact absurd hek hk
      · simp [hk, ih hnd.2 ⟨e, he, hek⟩]

namespace v1

theorem count_key_eq_home_bucket (t : hash_table_v1) (key : List Nat)
    (hw : wf t) :
    count_key t key =
      (t.entries (get_hash_table_entry key)).countP
        (fun e => e.key = key) := by
  rw [count_key]
  apply Finset.sum_eq_single_of_mem (get_hash_table_entry key)
    (Finset.mem_univ _)
  intro i _ hi
  apply countP_key_zero
  intro e he hek
  apply hi
  rw [← (hw i).2 e he, hek]

theorem count_key_add_entry (t : hash_table_v1) (key : List Nat)
    (value : Nat) (hw : wf t) :
    count_key (hash_table_v1_add_entry t key value) key = 1 := by
  have hw' := wf_add_entry t key value hw
  rw [count_key_eq_home_bucket _ key hw']
  apply countP_key_one
  · exact (hw' _).1
  · obtain ⟨hk, hmem⟩ :=
      get_list_entry_some key _ _ (add_entry_lookup t key value)
    exact ⟨_, hmem, hk⟩

theorem count_entries_add_entry_found (t : hash_table_v1) (key : List Nat)
    (value : Nat) (e : list_entry)
    (h : get_list_entry key (t.entries (get_hash_table_entry key)) =
      some e) :
    count_entries (hash_table_v1_add_entry t key value) =
      count_entries t := by
  rw [count_entries, count_entries]
  apply Finset.sum_congr rfl
  intro i _
  by_cases hi : i = get_hash_table_entry key
  · subst hi
    simp only [hash_table_v1_add_entry, h, Function.update_same]
    exact set_found_value_length key value _
  · rw [add_entry_frame t key value i hi]

end v1

namespace v2

theorem count_key_eq_home_bucket_v2 (t : hash_table_v2) (key : List Nat)
    (hw : wf t) :
    count_key t key =
      (t.entries (get_hash_table_entry key)).countP
        (fun e => e.key = key) := by
  rw [count_key]
  apply Finset.sum_eq_single_of_mem (get_hash_table_entry key)
    (Finset.mem_univ _)
  intro i _ hi
  apply countP_key_zero
  intro e he hek
  apply hi
  rw [← (hw i).2 e he, hek]

theorem count_key_add_entry_v2 (t : hash_table_v2) (key : List Nat)
    (value : Nat) (hw : wf t) :
    count_key (hash_table_v2_add_entry t key value) key = 1 := by
  have hw' := wf_add_entry_v2 t key value hw
  rw [count_key_eq_home_bucket_v2 _ key hw']
  apply countP_key_one
  · exact (hw' _).1
  · obtain ⟨hk, hmem⟩ :=
      get_list_entry_some_v2 key _ _ (add_entry_lookup_v2 t key value)
    exact ⟨_, hmem, hk⟩

theorem count_entries_add_entry_found_v2 (t : hash_table_v2) (key : List Nat)
    (value : Nat) (e : list_entry)
    (h : get_list_entry key (t.entries (get_hash_table_entry key)) =
      some e) :
    count_entries (hash_table_v2_add_entry t key value) =
      count_entries t := by
  rw [count_entries, count_entries]
  apply Finset.sum_congr rfl
  intro i _
  by_cases hi : i = get_hash_table_entry key
  · subst hi
    simp only [hash_table_v2_add_entry, h, Function.update_same]
    exact set_found_value_length_v2 key value _
  · rw [add_entry_frame_v2 t key value i hi]

end v2

/-! Bridging lemmas between the two variants' (textually identical)
static helpers, used for the observational-equivalence claim. -/

theorem v2_get_hash_table_entry_eq (key : List Nat) :
    v2.get_hash_table_entry key = v1.get_hash_table_entry key :=
  rfl

theorem v2_get_list_entry_eq (key : List Nat) :
    ∀ l : List list_entry,
      v2.get_list_entry key l = v1.get_list_entry key l := by
  intro l
  induction l with
  | nil => rfl
  | cons a rest ih => rw [v1.get_list_entry, v2.get_list_entry, ih]

theorem v2_set_found_value_eq (key : List Nat) (value : Nat) :
    ∀ l : List list_entry,
      v2.set_found_value key value l = v1.set_found_value key value l := by
  intro l
  induction l with
  | nil => rfl
  | cons a rest ih => rw [v1.set_found_value, v2.set_found_value, ih]

theorem v2_add_entry_entries_eq (f : Fin HASH_TABLE_CAPACITY → List list_entry)
    (key : List Nat) (value : Nat) :
    (v2.hash_table_v2_add_entry ⟨f⟩ key value).entries =
      (v1.hash_table_v1_add_entry ⟨f⟩ key value).entries := by
  simp only [v1.hash_table_v1_add_entry, v2.hash_table_v2_add_entry,
    v2_get_list_entry_eq, v2_get_hash_table_entry_eq, v2_set_found_value_eq]
  cases v1.get_list_entry key (f (v1.get_hash_table_entry key)) <;> rfl

theorem run_entries_eq (ops : List TableOp) :
    (v2.run ops).entries = (v1.run ops).entries := by
  rw [v1.run, v2.run]
  suffices h : ∀ (t1 : v1.hash_table_v1) (t2 : v2.hash_table_v2),
      t2.entries = t1.entries →
      (ops.foldl v2.apply_op t2).entries =
        (ops.foldl v1.apply_op t1).entries from h _ _ rfl
  induction ops with
  | nil => intro t1 t2 h; exact h
  | cons op rest ih =>
    intro t1 t2 h
    rw [List.foldl_cons, List.foldl_cons]
    apply ih
    cases op with
    | add_entry k v =>
      show (v2.hash_table_v2_add_entry t2 k v).entries =
        (v1.hash_table_v1_add_entry t1 k v).entries
      obtain ⟨f2⟩ := t2
      obtain ⟨f1⟩ := t1
      have h' : f2 = f1 := h
      subst h'
      exact v2_add_entry_entries_eq f2 k v

/-! Lemmas about the hash function. -/

theorem bernstein_hash_lt_aux :
    ∀ (l : List Nat) (acc : Nat), acc < 2 ^ 32 →
      l.foldl (fun acc b => (acc * 33 + b) % 2 ^ 32) acc < 2 ^ 32 := by
  intro l
  induction l with
  | nil => intro acc h; exact h
  | cons b rest ih =>
    intro acc h
    rw [List.foldl_cons]
    exact ih _ (Nat.mod_lt _ (by norm_num))

theorem bernstein_hash_lt (key : List Nat) :
    bernstein_hash key < 2 ^ 32 :=
  bernstein_hash_lt_aux key 5381 (by norm_num)

theorem bernstein_hash_append (key : List Nat) (b : Nat) :
    bernstein_hash (key ++ [b]) =
      (bernstein_hash key * 33 + b) % 2 ^ 32 := by
  simp only [bernstein_hash, List.foldl_append]
  rfl

/-!
Claim theorems.
-/

/-- C1: for every table t, key k, and 32-bit value v, immediately after a
sequential insert_or_update(t, k, v), contains(t, k) returns true and
get(t, k) returns v — in both variant 1 and variant 2 (`some v` is the
normal return of `get`, whose fatal-assert outcome is `none`). -/
theorem claim_c1 (t1 : v1.hash_table_v1) (t2 : v2.hash_table_v2)
    (k : List Nat) (v : Nat) (_hv : v < 2 ^ 32) :
    v1.hash_table_v1_contains (v1.hash_table_v1_add_entry t1 k v) k =
        true ∧
      v1.hash_table_v1_get_value (v1.hash_table_v1_add_entry t1 k v) k =
        some v ∧
      v2.hash_table_v2_contains (v2.hash_table_v2_add_entry t2 k v) k =
        true ∧
      v2.hash_table_v2_get_value (v2.hash_table_v2_add_entry t2 k v) k =
        some v := by
  refine ⟨?_, ?_, ?_, ?_⟩
  · rw [v1.hash_table_v1_contains, v1.add_entry_lookup]
    rfl
  · rw [v1.hash_table_v1_get_value, v1.add_entry_lookup]
    rfl
  · rw [v2.hash_table_v2_contains, v2.add_entry_lookup_v2]
    rfl
  · rw [v2.hash_table_v2_get_value, v2.add_entry_lookup_v2]
    rfl

/-- Witness for C1 at t = freshly created table, k = "a" (byte 97),
v = 7. -/
theorem claim_c1_witness :
    (7 : Nat) < 2 ^ 32 ∧
      (v1.hash_table_v1_contains
          (v1.hash_table_v1_add_entry v1.hash_table_v1_create [97] 7)
          [97] = true ∧
        v1.hash_table_v1_get_value
          (v1.hash_table_v1_add_entry v1.hash_table_v1_create [97] 7)
          [97] = some 7 ∧
        v2.hash_table_v2_contains
          (v2.hash_table_v2_add_entry v2.hash_table_v2_create [97] 7)
          [97] = true ∧
        v2.hash_table_v2_get_value
          (v2.hash_table_v2_add_entry v2.hash_table_v2_create [97] 7)
          [97] = some 7) :=
  ⟨by decide,
    claim_c1 v1.hash_table_v1_create v2.hash_table_v2_create [97] 7
      (by decide)⟩

/-- C2: on any sequentially reachable table, inserting v1 then v2 for the
same key k leaves exactly one entry for k in the whole table, that entry's
value is v2, and the second call links no new entry into any chain (total
entry count is unchanged by the second call) — in both variants. -/
theorem claim_c2 (ops : List TableOp) (k : List Nat) (a b : Nat) :
    (v1.count_key
        (v1.hash_table_v1_add_entry
          (v1.hash_table_v1_add_entry (v1.run ops) k a) k b) k = 1 ∧
      v1.hash_table_v1_get_value
        (v1.hash_table_v1_add_entry
          (v1.hash_table_v1_add_entry (v1.run ops) k a) k b) k = some b ∧
      v1.count_entries
          (v1.hash_table_v1_add_entry
            (v1.hash_table_v1_add_entry (v1.run ops) k a) k b) =
        v1.count_entries (v1.hash_table_v1_add_entry (v1.run ops) k a)) ∧
    (v2.count_key
        (v2.hash_table_v2_add_entry
          (v2.hash_table_v2_add_entry (v2.run ops) k a) k b) k = 1 ∧
      v2.hash_table_v2_get_value
        (v2.hash_table_v2_add_entry
          (v2.hash_table_v2_add_entry (v2.run ops) k a) k b) k = some b ∧
      v2.count_entries
          (v2.hash_table_v2_add_entry
            (v2.hash_table_v2_add_entry (v2.run ops) k a) k b) =
        v2.count_entries (v2.hash_table_v2_add_entry (v2.run ops) k a)) := by
  constructor
  · refine ⟨?_, ?_, ?_⟩
    · exact v1.count_key_add_entry _ k b
        (v1.wf_add_entry _ k a (v1.wf_run ops))
    · rw [v1.hash_table_v1_get_value, v1.add_entry_lookup]
      rfl
    · exact v1.count_entries_add_entry_found _ k b ⟨k, a⟩
        (v1.add_entry_lookup (v1.run ops) k a)
  · refine ⟨?_, ?_, ?_⟩
    · exact v2.count_key_add_entry_v2 _ k b
        (v2.wf_add_entry_v2 _ k a (v2.wf_run_v2 ops))
    · rw [v2.hash_table_v2_get_value, v2.add_entry_lookup_v2]
      rfl
    · exact v2.count_entries_add_entry_found_v2 _ k b ⟨k, a⟩
        (v2.add_entry_lookup_v2 (v2.run ops) k a)

/-- C4: the hash function is a pure function of the key bytes (so equal
keys give equal digests by construction, with no hidden state), starts
from the fixed non-zero seed 5381, folds each byte in as
accumulator * 33 + byte with 32-bit wraparound, is defined for the empty
key, and both variants route a key to the same bucket index
hash(key) mod capacity. -/
theorem claim_c4 (k : List Nat) (b : Nat) :
    bernstein_hash [] = 5381 ∧
      (5381 : Nat) ≠ 0 ∧
      bernstein_hash (k ++ [b]) =
        (bernstein_hash k * 33 + b) % 2 ^ 32 ∧
      bernstein_hash k < 2 ^ 32 ∧
      v1.get_hash_table_entry k = v2.get_hash_table_entry k ∧
      (v1.get_hash_table_entry k : Nat) =
        bernstein_hash k % HASH_TABLE_CAPACITY :=
  ⟨rfl, by decide, bernstein_hash_append k b, bernstein_hash_lt k,
    rfl, rfl⟩

/-- C5: variant 1 and variant 2 are observationally equal in the
single-threaded case: after any sequential operation sequence from a
fresh table, every contains and every get call returns identical results
in the two variants. -/
theorem claim_c5 (ops : List TableOp) (k : List Nat) :
    v1.hash_table_v1_contains (v1.run ops) k =
        v2.hash_table_v2_contains (v2.run ops) k ∧
      v1.hash_table_v1_get_value (v1.run ops) k =
        v2.hash_table_v2_get_value (v2.run ops) k := by
  have h := run_entries_eq ops
  constructor
  · rw [v1.hash_table_v1_contains, v2.hash_table_v2_contains, h,
      v2_get_list_entry_eq, v2_get_hash_table_entry_eq]
  · rw [v1.hash_table_v1_get_value, v2.hash_table_v2_get_value, h,
      v2_get_list_entry_eq, v2_get_hash_table_entry_eq]

/-- C6: across every sequence of insert_or_update operations both
variants maintain the invariant that each bucket holds at most one entry
per distinct key (its key list is duplicate-free) and that every entry
stored in bucket i satisfies hash(key) mod capacity = i; the bucket of a
key is `get_hash_table_entry`, a pure function of the key alone, so the
mapping never changes over the table's lifetime. -/
theorem claim_c6 (ops : List TableOp) :
    v1.wf (v1.run ops) ∧ v2.wf (v2.run ops) :=
  ⟨v1.wf_run ops, v2.wf_run_v2 ops⟩

/-- C7: get signals its fatal assertion (modelled by `none`) exactly when
the key is absent (contains = false); equivalently, whenever
contains(t, k) is true the assertion cannot fire and get returns
normally — in both variants. -/
theorem claim_c7 (t1 : v1.hash_table_v1) (t2 : v2.hash_table_v2)
    (k : List Nat) :
    (v1.hash_table_v1_get_value t1 k = none ↔
        v1.hash_table_v1_contains t1 k = false) ∧
      (v2.hash_table_v2_get_value t2 k = none ↔
        v2.hash_table_v2_contains t2 k = false) := by
  constructor
  · rw [v1.hash_table_v1_get_value, v1.hash_table_v1_contains]
    cases h : v1.get_list_entry k (t1.entries (v1.get_hash_table_entry k)) <;>
      simp
  · rw [v2.hash_table_v2_get_value, v2.hash_table_v2_contains]
    cases h : v2.get_list_entry k (t2.entries (v2.get_hash_table_entry k)) <;>
      simp

/-- C9: insert_or_update modifies at most the single bucket the key
hashes to; every other bucket's chain is untouched — in both variants. -/
theorem claim_c9 (t1 : v1.hash_table_v1) (t2 : v2.hash_table_v2)
    (k : List Nat) (v : Nat) (i j : Fin HASH_TABLE_CAPACITY)
    (hi : i ≠ v1.get_hash_table_entry k)
    (hj : j ≠ v2.get_hash_table_entry k) :
    (v1.hash_table_v1_add_entry t1 k v).entries i = t1.entries i ∧
      (v2.hash_table_v2_add_entry t2 k v).entries j = t2.entries j :=
  ⟨v1.add_entry_frame t1 k v i hi, v2.add_entry_frame_v2 t2 k v j hj⟩

/-- Witness for C9 at t = freshly created table, k = "a" (byte 97, whose
bucket is 518), v = 7, and untouched bucket 0. -/
theorem claim_c9_witness :
    (⟨0, by decide⟩ : Fin HASH_TABLE_CAPACITY) ≠
        v1.get_hash_table_entry [97] ∧
      (⟨0, by decide⟩ : Fin HASH_TABLE_CAPACITY) ≠
        v2.get_hash_table_entry [97] ∧
      ((v1.hash_table_v1_add_entry v1.hash_table_v1_create [97] 7).entries
            ⟨0, by decide⟩ =
          v1.hash_table_v1_create.entries ⟨0, by decide⟩ ∧
        (v2.hash_table_v2_add_entry v2.hash_table_v2_create [97] 7).entries
            ⟨0, by decide⟩ =
          v2.hash_table_v2_create.entries ⟨0, by decide⟩) :=
  ⟨by decide, by decide,
    claim_c9 v1.hash_table_v1_create v2.hash_table_v2_create [97] 7
      ⟨0, by decide⟩ ⟨0, by decide⟩ (by decide) (by decide)⟩

/-- C3 counterexample: the table does not store an owned copy of the key
bytes.  Insert the key "a" (byte 97, living in caller buffer 0) with
value 5, then let the caller mutate its buffer to "b" (byte 98): contains
for the original byte content [97] now returns false and get's assertion
fires (`none`) — even though the table was never touched after the
insert.  Immediately after the insert (buffer unmutated) contains was
true, so it is exactly the caller's mutation that breaks the lookup,
because `list_entry->key = key;` (hash-table-v1.c line 104,
hash-table-v2.c line 105) stored the caller's pointer. -/
theorem claim_c3_counterexample :
    ptr.hash_table_p_contains (⟨[[97]]⟩ : ptr.memory)
        (ptr.hash_table_p_add_entry ⟨[[97]]⟩ ptr.hash_table_p_create 0 5)
        [97] = true ∧
      ptr.hash_table_p_contains (ptr.write_buf ⟨[[97]]⟩ 0 [98])
        (ptr.hash_table_p_add_entry ⟨[[97]]⟩ ptr.hash_table_p_create 0 5)
        [97] = false ∧
      ptr.hash_table_p_get_value (ptr.write_buf ⟨[[97]]⟩ 0 [98])
        (ptr.hash_table_p_add_entry ⟨[[97]]⟩ ptr.hash_table_p_create 0 5)
        [97] = none := by
  refine ⟨by decide, by decide, by decide⟩

/-- C3 amended: when insert_or_update creates a new entry, the table
stores the caller's key pointer (`list_entry->key = key;`), not an owned
copy of the key bytes; lookups compare against the buffer's bytes as they
are at lookup time, so contains/get keep behaving as if k is present only
while the caller's key buffer still holds the original content — the
caller must keep the buffer alive and unmodified. -/
theorem claim_c3_amended (m : ptr.memory) (t : ptr.hash_table_p)
    (p : Nat) (v : Nat)
    (hmiss : ptr.get_list_entry m (ptr.read_buf m p)
      (t.entries (v1.get_hash_table_entry (ptr.read_buf m p))) = none) :
    (ptr.hash_table_p_add_entry m t p v).entries
        (v1.get_hash_table_entry (ptr.read_buf m p)) =
      ⟨p, v⟩ :: t.entries (v1.get_hash_table_entry (ptr.read_buf m p)) ∧
      ptr.hash_table_p_contains m (ptr.hash_table_p_add_entry m t p v)
        (ptr.read_buf m p) = true := by
  constructor
  · simp only [ptr.hash_table_p_add_entry, hmiss, Function.update_same]
  · simp only [ptr.hash_table_p_contains, ptr.hash_table_p_add_entry,
      hmiss, Function.update_same]
    rw [ptr.get_list_entry, if_pos rfl]
    rfl

/-- Witness for the amended C3 at memory with one buffer "a" (byte 97),
fresh table, buffer id 0, value 5. -/
theorem claim_c3_amended_witness :
    ptr.get_list_entry (⟨[[97]]⟩ : ptr.memory)
        (ptr.read_buf ⟨[[97]]⟩ 0)
        (ptr.hash_table_p_create.entries
          (v1.get_hash_table_entry (ptr.read_buf ⟨[[97]]⟩ 0))) = none ∧
      ((ptr.hash_table_p_add_entry ⟨[[97]]⟩ ptr.hash_table_p_create 0
            5).entries
          (v1.get_hash_table_entry (ptr.read_buf ⟨[[97]]⟩ 0)) =
        ⟨0, 5⟩ :: ptr.hash_table_p_create.entries
          (v1.get_hash_table_entry (ptr.read_buf ⟨[[97]]⟩ 0)) ∧
        ptr.hash_table_p_contains ⟨[[97]]⟩
          (ptr.hash_table_p_add_entry ⟨[[97]]⟩ ptr.hash_table_p_create 0 5)
          (ptr.read_buf ⟨[[97]]⟩ 0) = true) :=
  ⟨by decide, claim_c3_amended ⟨[[97]]⟩ ptr.hash_table_p_create 0 5
    (by decide)⟩

/-- C8 counterexample: when the `calloc` for a new list entry fails
inside insert_or_update, the failure is not reported and the process is
not terminated in a controlled way: the code keeps the NULL entry and the
very next statement writes through it (`list_entry->key = key;`,
hash-table-v1.c line 104 / hash-table-v2.c line 105) — undefined
behavior, with no check, no assert, no perror, no exit on that path, in
both variants. -/
theorem claim_c8_counterexample :
    alloc.hash_table_v1_add_entry_alloc v1.hash_table_v1_create [97] 7
        false = .error .null_deref ∧
      alloc.hash_table_v2_add_entry_alloc v2.hash_table_v2_create [97] 7
        false = .error .null_deref ∧
      alloc.crash.null_deref.reported = false :=
  ⟨rfl, rfl, rfl⟩

/-- C8 amended: allocation failure for the table itself is caught by
`assert` (reported abort), and guard-initialization failure is reported
via `perror` and terminates via `exit(EXIT_FAILURE)`; but allocation
failure for a bucket's new list entry inside insert_or_update is
unchecked — instead of a reported termination the code dereferences the
NULL entry (undefined behavior).  The update path of insert_or_update
allocates nothing and is unaffected. -/
theorem claim_c8_amended (t1 : v1.hash_table_v1) (t2 : v2.hash_table_v2)
    (k : List Nat) (v : Nat) (mok : Bool)
    (h1 : v1.get_list_entry k
      (t1.entries (v1.get_hash_table_entry k)) = none)
    (h2 : v2.get_list_entry k
      (t2.entries (v2.get_hash_table_entry k)) = none) :
    alloc.hash_table_v1_create_alloc false mok = .error .assert_fail ∧
      alloc.hash_table_v2_create_alloc false mok = .error .assert_fail ∧
      alloc.hash_table_v1_create_alloc true false =
        .error .reported_exit ∧
      alloc.hash_table_v2_create_alloc true false =
        .error .reported_exit ∧
      alloc.crash.assert_fail.reported = true ∧
      alloc.crash.reported_exit.reported = true ∧
      alloc.hash_table_v1_add_entry_alloc t1 k v false =
        .error .null_deref ∧
      alloc.hash_table_v2_add_entry_alloc t2 k v false =
        .error .null_deref ∧
      alloc.crash.null_deref.reported = false := by
  refine ⟨rfl, rfl, rfl, rfl, rfl, rfl, ?_, ?_, rfl⟩
  · simp only [alloc.hash_table_v1_add_entry_alloc, h1]
    rfl
  · simp only [alloc.hash_table_v2_add_entry_alloc, h2]
    rfl

/-- Witness for the amended C8 at fresh tables, key "a" (byte 97),
value 7, with the guard-init flag instantiated to true. -/
theorem claim_c8_amended_witness :
    v1.get_list_entry [97]
        (v1.hash_table_v1_create.entries
          (v1.get_hash_table_entry [97])) = none ∧
      v2.get_list_entry [97]
        (v2.hash_table_v2_create.entries
          (v2.get_hash_table_entry [97])) = none ∧
      (alloc.hash_table_v1_create_alloc false true =
          .error .assert_fail ∧
        alloc.hash_table_v2_create_alloc false true =
          .error .assert_fail ∧
        alloc.hash_table_v1_create_alloc true false =
          .error .reported_exit ∧
        alloc.hash_table_v2_create_alloc true false =
          .error .reported_exit ∧
        alloc.crash.assert_fail.reported = true ∧
        alloc.crash.reported_exit.reported = true ∧
        alloc.hash_table_v1_add_entry_alloc v1.hash_table_v1_create [97]
          7 false = .error .null_deref ∧
        alloc.hash_table_v2_add_entry_alloc v2.hash_table_v2_create [97]
          7 false = .error .null_deref ∧
        alloc.crash.null_deref.reported = false) :=
  ⟨rfl, rfl, claim_c8_amended v1.hash_table_v1_create
    v2.hash_table_v2_create [97] 7 true rfl rfl⟩

/-! Concurrency proofs: the inductive invariant holds initially, is
preserved by every interleaving step, and at the barrier (all threads
done) yields the correctness property for pairwise disjoint keys. -/

namespace conc

theorem inv_excl (n : Nat) (L : Type) [DecidableEq L]
    (jobs : Fin n → List Nat × Nat)
    (lock_of : Fin HASH_TABLE_CAPACITY → L) (s : sys n L)
    (hinv : inv n L jobs lock_of s) (t1 t2 : Fin n)
    (h1 : locked (s.pcs t1)) (h2 : locked (s.pcs t2))
    (hl : lock_of (idx_of jobs t1) = lock_of (idx_of jobs t2)) :
    t1 = t2 := by
  have o1 := hinv.owner_of_locked t1 h1
  have o2 := hinv.owner_of_locked t2 h2
  rw [hl] at o1
  rw [o1] at o2
  exact Option.some.inj o2

theorem no_found_of_inv (n : Nat) (L : Type) [DecidableEq L]
    (jobs : Fin n → List Nat × Nat)
    (lock_of : Fin HASH_TABLE_CAPACITY → L)
    (hdisj : ∀ t1 t2 : Fin n, t1 ≠ t2 →
      key_of jobs t1 ≠ key_of jobs t2)
    (s : sys n L) (hinv : inv n L jobs lock_of s) (t : Fin n)
    (hpc : s.pcs t = pc.scan) (e : list_entry)
    (hfound : v1.get_list_entry (key_of jobs t)
      (s.entries (idx_of jobs t)) = some e) : False := by
  obtain ⟨hek, hmem⟩ := v1.get_list_entry_some _ _ _ hfound
  obtain ⟨t', hc, hidx, he⟩ := (hinv.mem_iff _ _).mp hmem
  subst he
  have ht : t' = t := by
    by_contra hne
    exact hdisj t' t hne hek
  subst ht
  rw [hpc] at hc
  exact hc

theorem inv_init (n : Nat) (L : Type) [DecidableEq L]
    (jobs : Fin n → List Nat × Nat)
    (lock_of : Fin HASH_TABLE_CAPACITY → L) :
    inv n L jobs lock_of (init n L) := by
  refine ⟨?_, ?_, ?_, ?_, ?_⟩
  · intro t h
    exact h.elim
  · intro i e
    constructor
    · intro h
      exact absurd h (List.not_mem_nil e)
    · rintro ⟨t, hc, -, -⟩
      exact hc.elim
  · intro i
    exact List.nodup_nil
  · intro t saved h
    exact pc.noConfusion h
  · intro t h
    exact pc.noConfusion h

end conc

namespace conc

theorem inv_step (n : Nat) (L : Type) [DecidableEq L]
    (jobs : Fin n → List Nat × Nat)
    (lock_of : Fin HASH_TABLE_CAPACITY → L)
    (hdisj : ∀ t1 t2 : Fin n, t1 ≠ t2 →
      key_of jobs t1 ≠ key_of jobs t2)
    (s s' : sys n L) (hst : step n L jobs lock_of s s')
    (hinv : inv n L jobs lock_of s) : inv n L jobs lock_of s' := by
  cases hst with
  | acquire t hpc hfree =>
    refine ⟨?_, ?_, ?_, ?_, ?_⟩
    · dsimp only
      intro t' hl'
      by_cases ht : t' = t
      · subst ht
        exact Function.update_same _ _ _
      · have hl0 : locked (s.pcs t') := by
          rwa [Function.update_noteq ht] at hl'
        have ho := hinv.owner_of_locked t' hl0
        have hne : lock_of (idx_of jobs t') ≠ lock_of (idx_of jobs t) := by
          intro heq
          rw [heq, hfree] at ho
          exact Option.noConfusion ho
        rw [Function.update_noteq hne]
        exact ho
    · dsimp only
      intro i e
      constructor
      · intro he
        obtain ⟨t', hc, hidx, hee⟩ := (hinv.mem_iff i e).mp he
        refine ⟨t', ?_, hidx, hee⟩
        by_cases ht : t' = t
        · subst ht
          rw [hpc] at hc
          exact hc.elim
        · rwa [Function.update_noteq ht]
      · rintro ⟨t', hc, hidx, hee⟩
        apply (hinv.mem_iff i e).mpr
        refine ⟨t', ?_, hidx, hee⟩
        by_cases ht : t' = t
        · subst ht
          rw [Function.update_same] at hc
          exact hc.elim
        · rwa [Function.update_noteq ht] at hc
    · dsimp only
      intro i
      exact hinv.keys_nodup i
    · dsimp only
      intro t' saved hpc'
      by_cases ht : t' = t
      · subst ht
        rw [Function.update_same] at hpc'
        exact pc.noConfusion hpc'
      · rw [Function.update_noteq ht] at hpc'
        exact hinv.snapshot_current t' saved hpc'
    · dsimp only
      intro t'
      by_cases ht : t' = t
      · subst ht
        rw [Function.update_same]
        intro h
        exact pc.noConfusion h
      · rw [Function.update_noteq ht]
        exact hinv.no_write_found t'
  | scan_found t e hpc hfound =>
    exact absurd hfound
      (fun hf => no_found_of_inv n L jobs lock_of hdisj _ hinv t hpc e hf)
  | scan_missing t hpc hmiss =>
    refine ⟨?_, ?_, ?_, ?_, ?_⟩
    · dsimp only
      intro t' hl'
      by_cases ht : t' = t
      · subst ht
        exact hinv.owner_of_locked t' (by rw [hpc]; exact trivial)
      · have hl0 : locked (s.pcs t') := by
          rwa [Function.update_noteq ht] at hl'
        exact hinv.owner_of_locked t' hl0
    · dsimp only
      intro i e
      constructor
      · intro he
        obtain ⟨t', hc, hidx, hee⟩ := (hinv.mem_iff i e).mp he
        refine ⟨t', ?_, hidx, hee⟩
        by_cases ht : t' = t
        · subst ht
          rw [hpc] at hc
          exact hc.elim
        · rwa [Function.update_noteq ht]
      · rintro ⟨t', hc, hidx, hee⟩
        apply (hinv.mem_iff i e).mpr
        refine ⟨t', ?_, hidx, hee⟩
        by_cases ht : t' = t
        · subst ht
          rw [Function.update_same] at hc
          exact hc.elim
        · rwa [Function.update_noteq ht] at hc
    · dsimp only
      intro i
      exact hinv.keys_nodup i
    · dsimp only
      intro t' saved hpc'
      by_cases ht : t' = t
      · subst ht
        rw [Function.update_same] at hpc'
        exact pc.noConfusion hpc'
      · rw [Function.update_noteq ht] at hpc'
        exact hinv.snapshot_current t' saved hpc'
    · dsimp only
      intro t'
      by_cases ht : t' = t
      · subst ht
        rw [Function.update_same]
        intro h
        exact pc.noConfusion h
      · rw [Function.update_noteq ht]
        exact hinv.no_write_found t'
  | write_found_value t hpc =>
    exact absurd hpc (hinv.no_write_found t)
  | read_head_snapshot t hpc =>
    refine ⟨?_, ?_, ?_, ?_, ?_⟩
    · dsimp only
      intro t' hl'
      by_cases ht : t' = t
      · subst ht
        exact hinv.owner_of_locked t' (by rw [hpc]; exact trivial)
      · have hl0 : locked (s.pcs t') := by
          rwa [Function.update_noteq ht] at hl'
        exact hinv.owner_of_locked t' hl0
    · dsimp only
      intro i e
      constructor
      · intro he
        obtain ⟨t', hc, hidx, hee⟩ := (hinv.mem_iff i e).mp he
        refine ⟨t', ?_, hidx, hee⟩
        by_cases ht : t' = t
        · subst ht
          rw [hpc] at hc
          exact hc.elim
        · rwa [Function.update_noteq ht]
      · rintro ⟨t', hc, hidx, hee⟩
        apply (hinv.mem_iff i e).mpr
        refine ⟨t', ?_, hidx, hee⟩
        by_cases ht : t' = t
        · subst ht
          rw [Function.update_same] at hc
          exact hc.elim
        · rwa [Function.update_noteq ht] at hc
    · dsimp only
      intro i
      exact hinv.keys_nodup i
    · dsimp only
      intro t' saved hpc'
      by_cases ht : t' = t
      · subst ht
        rw [Function.update_same] at hpc'
        have hsv := pc.write_head.inj hpc'.symm
        exact hsv
      · rw [Function.update_noteq ht] at hpc'
        exact hinv.snapshot_current t' saved hpc'
    · dsimp only
      intro t'
      by_cases ht : t' = t
      · subst ht
        rw [Function.update_same]
        intro h
        exact pc.noConfusion h
      · rw [Function.update_noteq ht]
        exact hinv.no_write_found t'
  | write_head_publish t saved hpc =>
    have hsnap := hinv.snapshot_current t saved hpc
    subst hsnap
    refine ⟨?_, ?_, ?_, ?_, ?_⟩
    · dsimp only
      intro t' hl'
      by_cases ht : t' = t
      · subst ht
        exact hinv.owner_of_locked t' (by rw [hpc]; exact trivial)
      · have hl0 : locked (s.pcs t') := by
          rwa [Function.update_noteq ht] at hl'
        exact hinv.owner_of_locked t' hl0
    · dsimp only
      intro i e
      by_cases hi : i = idx_of jobs t
      · subst hi
        constructor
        · intro he
          rw [Function.update_same] at he
          rcases List.mem_cons.mp he with rfl | he0
          · exact ⟨t, by rw [Function.update_same]; exact trivial, rfl, rfl⟩
          · obtain ⟨t', hc, hidx, hee⟩ := (hinv.mem_iff _ e).mp he0
            have ht' : t' ≠ t := by
              intro h
              subst h
              rw [hpc] at hc
              exact hc
            exact ⟨t', by rw [Function.update_noteq ht']; exact hc,
              hidx, hee⟩
        · rintro ⟨t', hc, hidx, hee⟩
          rw [Function.update_same]
          by_cases ht' : t' = t
          · subst ht'
            rw [hee]
            exact List.mem_cons_self _ _
          · rw [Function.update_noteq ht'] at hc
            exact List.mem_cons_of_mem _
              ((hinv.mem_iff _ e).mpr ⟨t', hc, hidx, hee⟩)
      · constructor
        · intro he
          rw [Function.update_noteq hi] at he
          obtain ⟨t', hc, hidx, hee⟩ := (hinv.mem_iff i e).mp he
          have ht' : t' ≠ t := by
            intro h
            subst h
            rw [hpc] at hc
            exact hc
          exact ⟨t', by rw [Function.update_noteq ht']; exact hc,
            hidx, hee⟩
        · rintro ⟨t', hc, hidx, hee⟩
          rw [Function.update_noteq hi]
          by_cases ht' : t' = t
          · subst ht'
            exact absurd hidx.symm hi
          · rw [Function.update_noteq ht'] at hc
            exact (hinv.mem_iff i e).mpr ⟨t', hc, hidx, hee⟩
    · dsimp only
      intro i
      by_cases hi : i = idx_of jobs t
      · subst hi
        rw [Function.update_same, List.map_cons]
        refine List.nodup_cons.mpr ⟨?_, hinv.keys_nodup _⟩
        intro hmem
        obtain ⟨e0, he0, hk0⟩ := List.mem_map.mp hmem
        obtain ⟨t', hc, hidx, hee⟩ := (hinv.mem_iff _ e0).mp he0
        subst hee
        have ht' : t' = t := by
          by_contra hne
          exact hdisj t' t hne hk0
        subst ht'
        rw [hpc] at hc
        exact hc
      · rw [Function.update_noteq hi]
        exact hinv.keys_nodup i
    · dsimp only
      intro t' saved' hpc'
      by_cases ht' : t' = t
      · subst ht'
        rw [Function.update_same] at hpc'
        exact pc.noConfusion hpc'
      · rw [Function.update_noteq ht'] at hpc'
        have hsv := hinv.snapshot_current t' saved' hpc'
        by_cases hii : idx_of jobs t' = idx_of jobs t
        · have hlk : lock_of (idx_of jobs t') = lock_of (idx_of jobs t) := by
            rw [hii]
          have heq : t' = t := inv_excl n L jobs lock_of s hinv t' t
            (by rw [hpc']; exact trivial) (by rw [hpc]; exact trivial) hlk
          exact absurd heq ht'
        · rw [Function.update_noteq hii]
          exact hsv
    · dsimp only
      intro t'
      by_cases ht : t' = t
      · subst ht
        rw [Function.update_same]
        intro h
        exact pc.noConfusion h
      · rw [Function.update_noteq ht]
        exact hinv.no_write_found t'
  | release t hpc =>
    refine ⟨?_, ?_, ?_, ?_, ?_⟩
    · dsimp only
      intro t' hl'
      by_cases ht : t' = t
      · subst ht
        rw [Function.update_same] at hl'
        exact hl'.elim
      · have hl0 : locked (s.pcs t') := by
          rwa [Function.update_noteq ht] at hl'
        have ho := hinv.owner_of_locked t' hl0
        have hot := hinv.owner_of_locked t (by rw [hpc]; exact trivial)
        have hne : lock_of (idx_of jobs t') ≠ lock_of (idx_of jobs t) := by
          intro heq
          rw [heq, hot] at ho
          exact ht (Option.some.inj ho).symm
        rw [Function.update_noteq hne]
        exact ho
    · dsimp only
      intro i e
      constructor
      · intro he
        obtain ⟨t', hc, hidx, hee⟩ := (hinv.mem_iff i e).mp he
        refine ⟨t', ?_, hidx, hee⟩
        by_cases ht : t' = t
        · subst ht
          rw [Function.update_same]
          exact trivial
        · rwa [Function.update_noteq ht]
      · rintro ⟨t', hc, hidx, hee⟩
        apply (hinv.mem_iff i e).mpr
        refine ⟨t', ?_, hidx, hee⟩
        by_cases ht : t' = t
        · subst ht
          rw [hpc]
          exact trivial
        · rwa [Function.update_noteq ht] at hc
    · dsimp only
      intro i
      exact hinv.keys_nodup i
    · dsimp only
      intro t' saved hpc'
      by_cases ht : t' = t
      · subst ht
        rw [Function.update_same] at hpc'
        exact pc.noConfusion hpc'
      · rw [Function.update_noteq ht] at hpc'
        exact hinv.snapshot_current t' saved hpc'
    · dsimp only
      intro t'
      by_cases ht : t' = t
      · subst ht
        rw [Function.update_same]
        intro h
        exact pc.noConfusion h
      · rw [Function.update_noteq ht]
        exact hinv.no_write_found t'

end conc

namespace conc

theorem inv_reaches (n : Nat) (L : Type) [DecidableEq L]
    (jobs : Fin n → List Nat × Nat)
    (lock_of : Fin HASH_TABLE_CAPACITY → L)
    (hdisj : ∀ t1 t2 : Fin n, t1 ≠ t2 →
      key_of jobs t1 ≠ key_of jobs t2)
    (s : sys n L)
    (hr : reaches n L jobs lock_of (init n L) s) :
    inv n L jobs lock_of s := by
  induction hr with
  | refl => exact inv_init n L jobs lock_of
  | tail s2 s3 h hs ih => exact inv_step n L jobs lock_of hdisj s2 s3 hs ih

theorem final_state (n : Nat) (L : Type) [DecidableEq L]
    (jobs : Fin n → List Nat × Nat)
    (lock_of : Fin HASH_TABLE_CAPACITY → L)
    (hdisj : ∀ t1 t2 : Fin n, t1 ≠ t2 →
      key_of jobs t1 ≠ key_of jobs t2)
    (s : sys n L)
    (hr : reaches n L jobs lock_of (init n L) s)
    (hdone : ∀ t : Fin n, s.pcs t = .done) :
    (∀ t : Fin n,
        v1.get_list_entry (key_of jobs t) (s.entries (idx_of jobs t)) =
          some ⟨key_of jobs t, val_of jobs t⟩) ∧
      (∀ i : Fin HASH_TABLE_CAPACITY,
        ((s.entries i).map list_entry.key).Nodup) ∧
      (∀ (i : Fin HASH_TABLE_CAPACITY) (e : list_entry), e ∈ s.entries i →
        ∃ t : Fin n, idx_of jobs t = i ∧
          e = ⟨key_of jobs t, val_of jobs t⟩) := by
  have hinv := inv_reaches n L jobs lock_of hdisj s hr
  refine ⟨?_, hinv.keys_nodup, ?_⟩
  · intro t
    have hmem : (⟨key_of jobs t, val_of jobs t⟩ : list_entry) ∈
        s.entries (idx_of jobs t) :=
      (hinv.mem_iff _ _).mpr ⟨t, by rw [hdone t]; exact trivial, rfl, rfl⟩
    cases hget : v1.get_list_entry (key_of jobs t)
        (s.entries (idx_of jobs t)) with
    | none =>
      exact absurd rfl ((v1.get_list_entry_none _ _).mp hget _ hmem)
    | some e =>
      obtain ⟨hek, hmem'⟩ := v1.get_list_entry_some _ _ _ hget
      obtain ⟨t', hc', hidx', hee'⟩ := (hinv.mem_iff _ _).mp hmem'
      subst hee'
      have ht : t' = t := by
        by_contra hne
        exact hdisj t' t hne hek
      subst ht
      rfl
  · intro i e he
    obtain ⟨t', hc, hidx, hee⟩ := (hinv.mem_iff i e).mp he
    exact ⟨t', hidx, hee⟩

theorem demo_reaches (L : Type) [DecidableEq L]
    (lock_of : Fin HASH_TABLE_CAPACITY → L) :
    reaches 1 L demo_jobs lock_of (init 1 L) (demo_final L lock_of) := by
  have h0 : reaches 1 L demo_jobs lock_of (init 1 L) (init 1 L) :=
    reaches.refl _
  have h1 := reaches.tail _ _ _ h0 (step.acquire (init 1 L) 0 rfl rfl)
  have h2 := reaches.tail _ _ _ h1 (step.scan_missing _ 0 rfl rfl)
  have h3 := reaches.tail _ _ _ h2 (step.read_head_snapshot _ 0 rfl)
  have h4 := reaches.tail _ _ _ h3 (step.write_head_publish _ 0 [] rfl)
  have h5 := reaches.tail _ _ _ h4 (step.release _ 0 rfl)
  exact h5

end conc

/-- C10: in both variants, when n threads each run one insert_or_update
with pairwise disjoint keys, under any interleaving of the decomposed
shared-memory accesses (including the two-step SLIST head insertion)
permitted by the variant's guard discipline, a barrier state in which
every thread has finished satisfies: every inserted key is present in its
bucket with its own value, no bucket has a duplicated key, and every
entry in the table is one of the inserted jobs (none missing, duplicated,
or corrupted). -/
theorem claim_c10 (n : Nat) (jobs : Fin n → List Nat × Nat)
    (hdisj : ∀ t1 t2 : Fin n, t1 ≠ t2 →
      conc.key_of jobs t1 ≠ conc.key_of jobs t2)
    (s1 : conc.sys n Unit) (s2 : conc.sys n (Fin HASH_TABLE_CAPACITY))
    (h1 : conc.reaches n Unit jobs conc.v1_lock_of (conc.init n Unit) s1)
    (h2 : conc.reaches n (Fin HASH_TABLE_CAPACITY) jobs conc.v2_lock_of
      (conc.init n (Fin HASH_TABLE_CAPACITY)) s2)
    (hdone1 : ∀ t : Fin n, s1.pcs t = .done)
    (hdone2 : ∀ t : Fin n, s2.pcs t = .done) :
    ((∀ t : Fin n,
        v1.get_list_entry (conc.key_of jobs t)
            (s1.entries (conc.idx_of jobs t)) =
          some ⟨conc.key_of jobs t, conc.val_of jobs t⟩) ∧
      (∀ i : Fin HASH_TABLE_CAPACITY,
        ((s1.entries i).map list_entry.key).Nodup) ∧
      (∀ (i : Fin HASH_TABLE_CAPACITY) (e : list_entry),
        e ∈ s1.entries i → ∃ t : Fin n, conc.idx_of jobs t = i ∧
          e = ⟨conc.key_of jobs t, conc.val_of jobs t⟩)) ∧
      ((∀ t : Fin n,
          v2.get_list_entry (conc.key_of jobs t)
              (s2.entries (conc.idx_of jobs t)) =
            some ⟨conc.key_of jobs t, conc.val_of jobs t⟩) ∧
        (∀ i : Fin HASH_TABLE_CAPACITY,
          ((s2.entries i).map list_entry.key).Nodup) ∧
        (∀ (i : Fin HASH_TABLE_CAPACITY) (e : list_entry),
          e ∈ s2.entries i → ∃ t : Fin n, conc.idx_of jobs t = i ∧
            e = ⟨conc.key_of jobs t, conc.val_of jobs t⟩)) := by
  refine ⟨conc.final_state n Unit jobs conc.v1_lock_of hdisj s1 h1 hdone1,
    ?_, ?_, ?_⟩
  · intro t
    rw [v2_get_list_entry_eq]
    exact (conc.final_state n (Fin HASH_TABLE_CAPACITY) jobs
      conc.v2_lock_of hdisj s2 h2 hdone2).1 t
  · exact (conc.final_state n (Fin HASH_TABLE_CAPACITY) jobs
      conc.v2_lock_of hdisj s2 h2 hdone2).2.1
  · exact (conc.final_state n (Fin HASH_TABLE_CAPACITY) jobs
      conc.v2_lock_of hdisj s2 h2 hdone2).2.2

/-- Witness for C10: a one-thread run under each guard discipline that
acquires, scans (miss), snapshots the bucket head, publishes its node,
and releases, inserting key "a" (byte 97) with value 7. -/
theorem claim_c10_witness :
    (∀ t1 t2 : Fin 1, t1 ≠ t2 →
      conc.key_of conc.demo_jobs t1 ≠ conc.key_of conc.demo_jobs t2) ∧
      conc.reaches 1 Unit conc.demo_jobs conc.v1_lock_of
        (conc.init 1 Unit) (conc.demo_final Unit conc.v1_lock_of) ∧
      conc.reaches 1 (Fin HASH_TABLE_CAPACITY) conc.demo_jobs
        conc.v2_lock_of (conc.init 1 (Fin HASH_TABLE_CAPACITY))
        (conc.demo_final (Fin HASH_TABLE_CAPACITY) conc.v2_lock_of) ∧
      (∀ t : Fin 1,
        (conc.demo_final Unit conc.v1_lock_of).pcs t = .done) ∧
      (∀ t : Fin 1,
        (conc.demo_final (Fin HASH_TABLE_CAPACITY)
          conc.v2_lock_of).pcs t = .done) ∧
      (((∀ t : Fin 1,
          v1.get_list_entry (conc.key_of conc.demo_jobs t)
              ((conc.demo_final Unit conc.v1_lock_of).entries
                (conc.idx_of conc.demo_jobs t)) =
            some ⟨conc.key_of conc.demo_jobs t,
              conc.val_of conc.demo_jobs t⟩) ∧
        (∀ i : Fin HASH_TABLE_CAPACITY,
          (((conc.demo_final Unit conc.v1_lock_of).entries i).map
            list_entry.key).Nodup) ∧
        (∀ (i : Fin HASH_TABLE_CAPACITY) (e : list_entry),
          e ∈ (conc.demo_final Unit conc.v1_lock_of).entries i →
            ∃ t : Fin 1, conc.idx_of conc.demo_jobs t = i ∧
              e = ⟨conc.key_of conc.demo_jobs t,
                conc.val_of conc.demo_jobs t⟩)) ∧
        ((∀ t : Fin 1,
            v2.get_list_entry (conc.key_of conc.demo_jobs t)
                ((conc.demo_final (Fin HASH_TABLE_CAPACITY)
                  conc.v2_lock_of).entries
                  (conc.idx_of conc.demo_jobs t)) =
              some ⟨conc.key_of conc.demo_jobs t,
                conc.val_of conc.demo_jobs t⟩) ∧
          (∀ i : Fin HASH_TABLE_CAPACITY,
            (((conc.demo_final (Fin HASH_TABLE_CAPACITY)
              conc.v2_lock_of).entries i).map list_entry.key).Nodup) ∧
          (∀ (i : Fin HASH_TABLE_CAPACITY) (e : list_entry),
            e ∈ (conc.demo_final (Fin HASH_TABLE_CAPACITY)
                conc.v2_lock_of).entries i →
              ∃ t : Fin 1, conc.idx_of conc.demo_jobs t = i ∧
                e = ⟨conc.key_of conc.demo_jobs t,
                  conc.val_of conc.demo_jobs t⟩))) := by
  have hdisj : ∀ t1 t2 : Fin 1, t1 ≠ t2 →
      conc.key_of conc.demo_jobs t1 ≠ conc.key_of conc.demo_jobs t2 := by
    decide
  have hd1 : ∀ t : Fin 1,
      (conc.demo_final Unit conc.v1_lock_of).pcs t = .done := by decide
  have hd2 : ∀ t : Fin 1,
      (conc.demo_final (Fin HASH_TABLE_CAPACITY)
        conc.v2_lock_of).pcs t = .done := by decide
  exact ⟨hdisj, conc.demo_reaches Unit conc.v1_lock_of,
    conc.demo_reaches (Fin HASH_TABLE_CAPACITY) conc.v2_lock_of, hd1, hd2,
    claim_c10 1 conc.demo_jobs hdisj _ _
      (conc.demo_reaches Unit conc.v1_lock_of)
      (conc.demo_reaches (Fin HASH_TABLE_CAPACITY) conc.v2_lock_of)
      hd1 hd2⟩
